import Mathlib

set_option maxRecDepth 4000

/-!
Shallow embedding of the transcription repository's core logic.

JavaScript strings are modelled as lists of characters (`Str`), JS numbers
as `Nat` or `Int` where they stay integral in the source.  Each definition
mirrors one function (or one loop) of the source files:

- `splitAudioFile`            from FileUpload (byte-range splitter)
- `mergeTranscriptions`, `findOverlapPoints`, `resolveOverlap`
                              from FileUpload (overlap resolver, part_000)
- `estimateTokens`, `retryWithBackoff`, `splitTextIntoChunks`,
  the token-budget loop and the group-combine loop
                              from NotesProcessor (part_001)

External model calls are abstracted as oracles (functions returning
`Option Str`, where `none` models a response with no usable content).
-/

namespace Transcription

/-- A JS string, modelled as its list of characters. -/
abbrev Str := List Char

/-- Membership of the JS whitespace class (the ASCII part that the inputs
here can contain): space, tab, newline, carriage return, vertical tab and
form feed. -/
def isWsChar (c : Char) : Bool :=
  c == ' ' || c == '\t' || c == '\n' || c == '\r' || c == '\x0b' || c == '\x0c'

/-- JS `String.prototype.trim`: drop whitespace from both ends. -/
def jtrim (s : Str) : Str :=
  ((s.dropWhile isWsChar).reverse.dropWhile isWsChar).reverse

/-- JS `String.prototype.toLowerCase`, character by character. -/
def jlower (s : Str) : Str := s.map Char.toLower

/-- Does the second list start with the first one? -/
def leadsWith : Str → Str → Bool
  | [], _ => true
  | _ :: _, [] => false
  | p :: ps, c :: cs => p == c && leadsWith ps cs

/-- JS `String.prototype.indexOf`, returning `none` instead of `-1`:
first position at or after `k` where `pat` occurs in `s`. -/
def indexOfFrom (pat : Str) : Str → Nat → Option Nat
  | s, k =>
    if leadsWith pat s then some k
    else
      match s with
      | [] => none
      | _ :: cs => indexOfFrom pat cs (k + 1)

/-- JS `String.prototype.includes`. -/
def jincludes (s pat : Str) : Bool := (indexOfFrom pat s 0).isSome

/-- One of the sentence-terminator characters used by the source. -/
def isPunctChar (c : Char) : Bool := c == '.' || c == '!' || c == '?'

/-- JS `split` on the character class of `.`, `!`, `?`: every terminator is a
delimiter and is dropped; empty pieces are kept. -/
def splitOnPunct : Str → List Str
  | [] => [[]]
  | c :: cs =>
    let rest := splitOnPunct cs
    if isPunctChar c then [] :: rest
    else
      match rest with
      | [] => [[c]]
      | r :: rs => (c :: r) :: rs

/-- JS `split` on one-or-more whitespace: a maximal whitespace run is one
delimiter, so runs never produce interior empty pieces, while leading or
trailing runs produce a leading or trailing empty piece. -/
def splitWsRuns : Str → List Str
  | [] => [[]]
  | c :: cs =>
    let rest := splitWsRuns cs
    if isWsChar c then
      match cs with
      | [] => [] :: rest
      | c2 :: _ => if isWsChar c2 then rest else [] :: rest
    else
      match rest with
      | [] => [[c]]
      | r :: rs => (c :: r) :: rs

/-- JS `split(' ')`: every single space is a delimiter, empty pieces kept. -/
def splitSpace : Str → List Str
  | [] => [[]]
  | c :: cs =>
    let rest := splitSpace cs
    if c == ' ' then [] :: rest
    else
      match rest with
      | [] => [[c]]
      | r :: rs => (c :: r) :: rs

/-- Core loop of the sentence split used by `splitTextIntoChunks`: cut after
a terminator character that is followed by whitespace, consuming the
whitespace run.  `skipping` records that we are inside a consumed run,
`prev` is the previously read character, `cur` the current piece reversed,
`acc` the finished pieces in reverse order. -/
def splitSentGo (skipping : Bool) (prev : Char) (cur : Str) (acc : List Str) :
    Str → List Str
  | [] => (cur.reverse :: acc).reverse
  | c :: cs =>
    if skipping && isWsChar c then
      splitSentGo true c cur acc cs
    else if isPunctChar prev && isWsChar c then
      splitSentGo true c [] (cur.reverse :: acc) cs
    else
      splitSentGo false c (c :: cur) acc cs

/-- JS `split` on whitespace preceded by a sentence terminator, as in the
source's sentence-boundary regular expression. -/
def splitSentences (s : Str) : List Str :=
  splitSentGo false 'a' [] [] s

/-!  The overlap resolver of FileUpload (part_000). -/

/-- The candidate phrase for suffix length `i`: the last `i` words joined by
single spaces, as in `words.slice(-i).join(' ')`. -/
def phraseOf (words : List Str) (i : Nat) : Str :=
  List.intercalate [' '] (words.drop (words.length - i))

/-- Function `findOverlapPoints` from FileUpload: for `i` from the word count down
to `3`, collect the suffix phrases of the last sentence that occur
case-insensitively in the current text. -/
def findOverlapPoints (lastSentence currentText : Str) : List Str :=
  let words := splitWsRuns lastSentence
  ((List.range' 3 (words.length - 2)).reverse).foldl
    (fun acc i =>
      if jincludes (jlower currentText) (jlower (phraseOf words i)) then
        acc ++ [phraseOf words i]
      else acc) []

/-- The per-pair body of `mergeTranscriptions` from FileUpload (part_000),
applied to a chunk with a predecessor: trim the current text, extract the
previous chunk's last non-empty sentence, search for the longest overlap
candidate, and cut the current text after the match when the match sits in
its first half. -/
def resolveOverlap (prevText rawCurrent : Str) : Str :=
  let currentText := jtrim rawCurrent
  let lastSentences := (splitOnPunct prevText).filter fun s => 0 < (jtrim s).length
  let lastSentence := jtrim (lastSentences.getLast?.getD [])
  if lastSentence.isEmpty then currentText
  else
    match findOverlapPoints lastSentence currentText with
    | [] => currentText
    | p :: ps =>
      let bestOverlap := ps.foldl (fun a b => if b.length < a.length then a else b) p
      match indexOfFrom (jlower bestOverlap) (jlower currentText) 0 with
      | some overlapIndex =>
        if 2 * overlapIndex < currentText.length then
          jtrim (currentText.drop (overlapIndex + bestOverlap.length))
        else currentText
      | none => currentText

/-- Function `mergeTranscriptions` from FileUpload (part_000): first chunk trimmed,
later chunks resolved against their predecessor, empty pieces dropped, and
the rest joined with a blank line. -/
def mergeTranscriptions (transcriptions : List Str) : Str :=
  List.intercalate ['\n', '\n']
    ((transcriptions.mapIdx fun i t =>
        if i = 0 then jtrim t
        else resolveOverlap (transcriptions.getD (i - 1) []) t).filter
      fun t => 0 < t.length)

/-!  The token-bounded text splitter of NotesProcessor (part_001). -/

/-- Function `estimateTokens` from NotesProcessor: the ceiling of the character
count divided by four. -/
def estimateTokens (s : Str) : Nat := (s.length + 3) / 4

/-- The word-level fallback loop of `splitTextIntoChunks`: greedy
accumulation of space-separated words; on overflow the accumulated piece is
pushed (even when it is empty) and the overflowing word starts the next
piece.  Returns the grown chunk list and the final `tempChunk`. -/
def splitWordsLoop (chunkSize : Nat) (tempChunk : Str) (chunks : List Str) :
    List Str → List Str × Str
  | [] => (chunks, tempChunk)
  | w :: ws =>
    if chunkSize < (tempChunk ++ w).length then
      splitWordsLoop chunkSize w (chunks ++ [jtrim tempChunk]) ws
    else
      splitWordsLoop chunkSize
        (if tempChunk.isEmpty then w else tempChunk ++ ' ' :: w) chunks ws

/-- The sentence-level loop of `splitTextIntoChunks`: greedy accumulation
of sentences; on overflow the accumulated chunk is flushed and an oversized
sentence falls back to the word-level loop. -/
def splitSentLoop (chunkSize : Nat) (currentChunk : Str) (chunks : List Str) :
    List Str → List Str
  | [] => if currentChunk.isEmpty then chunks else chunks ++ [jtrim currentChunk]
  | s :: ss =>
    if chunkSize < (currentChunk ++ s).length then
      let chunks1 :=
        if currentChunk.isEmpty then chunks else chunks ++ [jtrim currentChunk]
      if chunkSize < s.length then
        let r := splitWordsLoop chunkSize [] chunks1 (splitSpace s)
        splitSentLoop chunkSize r.2 r.1 ss
      else
        splitSentLoop chunkSize s chunks1 ss
    else
      splitSentLoop chunkSize
        (if currentChunk.isEmpty then s else currentChunk ++ ' ' :: s) chunks ss

/-- Function `splitTextIntoChunks` from NotesProcessor. -/
def splitTextIntoChunks (text : Str) (chunkSize : Nat) : List Str :=
  splitSentLoop chunkSize [] [] (splitSentences text)

/-!  The byte-range audio splitter of FileUpload. -/

/-- Function `splitAudioFile` from FileUpload, reduced to the byte ranges it
slices: `ceil(size / chunkSize)` chunks, chunk `i` spanning from
`max(0, i * chunkSize - (i > 0 ? overlapSize : 0))` to
`min(size, (i + 1) * chunkSize + (i < totalChunks - 1 ? overlapSize : 0))`. -/
def splitAudioFile (size chunkSize overlapSize : Nat) : List (Int × Int) :=
  let totalChunks := (size + chunkSize - 1) / chunkSize
  (List.range totalChunks).map fun (i : Nat) =>
    (max 0 ((i : Int) * chunkSize - (if 0 < i then (overlapSize : Int) else 0)),
     min (size : Int)
       (((i : Int) + 1) * chunkSize +
         (if i < totalChunks - 1 then (overlapSize : Int) else 0)))

/-!  The rolling token-budget loop of `processNotes` (part_001, first
stage).  The external call is abstracted away; what is recorded per chunk
is whether the 60-second pause fired before its dispatch and the counter
value after its cost was added. -/

/-- One entry per dispatched chunk: `(pausedBefore, counterAfterAdd)`.  A
pause resets the counter to zero before the chunk's cost is added. -/
def scheduleSteps (limit : Nat) : Nat → List Str → List (Bool × Nat)
  | _, [] => []
  | counter, chunk :: rest =>
    let cost := estimateTokens chunk
    if limit < counter + cost then
      (true, cost) :: scheduleSteps limit cost rest
    else
      (false, counter + cost) :: scheduleSteps limit (counter + cost) rest

/-- The notes pipeline's token-budget trace: chunk size 300 and window
limit 8000 are the literals of `processNotes`. -/
def processNotesCounters (rawNotes : Str) : List (Bool × Nat) :=
  scheduleSteps 8000 0 (splitTextIntoChunks rawNotes 300)

/-!  `retryWithBackoff` from NotesProcessor. -/

/-- Outcome of one attempt of the wrapped operation: a value, or a thrown
error carrying its message. -/
inductive CallOutcome where
  | ok (v : Str)
  | err (msg : Str)
deriving DecidableEq

deriving instance DecidableEq for Except

/-- The source's rate-limit test: the error message contains `429`. -/
def msgHas429 (msg : Str) : Bool := jincludes msg ('4' :: '2' :: '9' :: [])

/-- What a run of `retryWithBackoff` produced: the returned or thrown
value (`none` models the loop falling through, which happens only when
`maxRetries = 0`), the number of attempts made, and the backoff delays
waited between attempts.  The fixed two-second pre-call delay of the source
is not part of the backoff sequence and is not recorded. -/
structure RetryResult where
  result : Option (Except Str Str)
  attempts : Nat
  backoffs : List Nat
deriving DecidableEq

/-- The retry loop.  `op k` is the outcome of attempt number `k` (starting
at `attempts`).  `fuel` stands for `maxRetries - retries`, so the loop
guard `retries < maxRetries` becomes `0 < fuel` and the retry guard
`retries < maxRetries - 1` becomes `1 ≤ fuel` after the decrement. -/
def retryGo (op : Nat → CallOutcome) (currentDelay attempts : Nat)
    (backoffs : List Nat) : Nat → RetryResult
  | 0 => ⟨none, attempts, backoffs⟩
  | fuel + 1 =>
    match op attempts with
    | .ok v => ⟨some (.ok v), attempts + 1, backoffs⟩
    | .err m =>
      if msgHas429 m && decide (1 ≤ fuel) then
        retryGo op (currentDelay * 2) (attempts + 1) (backoffs ++ [currentDelay]) fuel
      else ⟨some (.error m), attempts + 1, backoffs⟩

/-- Function `retryWithBackoff` from NotesProcessor (defaults in the source:
`maxRetries = 5`, `initialDelay = 5000`). -/
def retryWithBackoff (op : Nat → CallOutcome) (maxRetries initialDelay : Nat) :
    RetryResult :=
  retryGo op initialDelay 0 [] maxRetries

/-!  The group-combine (hierarchical reduction) stage of `processNotes`
(part_001, second stage).  The external combine call is an oracle from the
group's chunk list to its returned content, `none` modelling a response
with no usable content. -/

/-- State of the combine loop: the accumulating group and its token count,
the combined outputs collected so far, and the number of combine calls
issued so far. -/
structure CombineState where
  currentGroup : List Str
  currentGroupTokens : Nat
  combined : List Str
  calls : Nat
deriving DecidableEq

/-- The chunk-grouping loop on its own: returns the flushed groups in
order, plus the final partial group and its token count. -/
def groupLoop (limit : Nat) : List Str → Nat → List Str →
    List (List Str) × List Str × Nat
  | cg, cgt, [] => ([], cg, cgt)
  | cg, cgt, chunk :: rest =>
    let ct := estimateTokens chunk
    if limit < cgt + ct then
      let r := groupLoop limit [chunk] ct rest
      (cg :: r.1, r.2)
    else
      groupLoop limit (cg ++ [chunk]) (cgt + ct) rest

/-- The groups on which combine calls are issued: every group flushed on
overflow (including a possibly empty very first group), plus the final
partial group when it is non-empty. -/
def groupsOf (limit : Nat) (chunks : List Str) : List (List Str) :=
  let r := groupLoop limit [] 0 chunks
  if r.2.1.isEmpty then r.1 else r.1 ++ [r.2.1]

/-- The combine loop of `processNotes`: on overflow the current group is
flushed through one combine call; a call that returns content appends it
to `combined`, a call that returns no content is skipped silently. -/
def combineLoop (oracle : List Str → Option Str) (limit : Nat)
    (st : CombineState) : List Str → CombineState
  | [] => st
  | chunk :: rest =>
    let ct := estimateTokens chunk
    if limit < st.currentGroupTokens + ct then
      let combined2 :=
        match oracle st.currentGroup with
        | some c => st.combined ++ [c]
        | none => st.combined
      combineLoop oracle limit ⟨[chunk], ct, combined2, st.calls + 1⟩ rest
    else
      combineLoop oracle limit
        ⟨st.currentGroup ++ [chunk], st.currentGroupTokens + ct,
          st.combined, st.calls⟩ rest

/-- The whole combine stage, including the flush of the final partial
group: returns the combined outputs and the number of group-combine calls
issued.  The group token limit is 2000 in the source. -/
def combineStage (oracle : List Str → Option Str) (limit : Nat)
    (chunks : List Str) : List Str × Nat :=
  let st := combineLoop oracle limit ⟨[], 0, [], 0⟩ chunks
  if st.currentGroup.isEmpty then (st.combined, st.calls)
  else
    match oracle st.currentGroup with
    | some c => (st.combined ++ [c], st.calls + 1)
    | none => (st.combined, st.calls + 1)

/-!  The full notes pipeline after text splitting, with all three kinds of
external call abstracted as oracles: the per-chunk cleanup call, the
group-combine call, and the final combination call. -/

/-- The per-chunk stage: each chunk is sent through the cleanup call; a
response with no content throws at once.  Returns the processed chunks (or
`none` on the throw) and the number of calls made. -/
def chunkStage (oracle : Str → Option Str) : List Str → Option (List Str) × Nat
  | [] => (some [], 0)
  | c :: rest =>
    match oracle c with
    | none => (none, 1)
    | some v =>
      match chunkStage oracle rest with
      | (none, n) => (none, n + 1)
      | (some vs, n) => (some (v :: vs), n + 1)

/-- Outcome of one run of the modelled pipeline: the result (final document
or the thrown error message) and the number of external calls of each
kind. -/
structure PipelineRun where
  result : Except Str Str
  chunkCalls : Nat
  groupCalls : Nat
  finalCalls : Nat
deriving DecidableEq

/-- The reduction tail of `processNotes`: group-combine stage followed by
the unconditional final combination call, whose empty response throws. -/
def reduceStage (go : List Str → Option Str) (fo : List Str → Option Str)
    (limit : Nat) (processed : List Str) : Except Str Str × Nat × Nat :=
  let cs := combineStage go limit processed
  match fo cs.1 with
  | none => (.error "No content received from final API call".toList, cs.2, 1)
  | some v => (.ok v, cs.2, 1)

/-- Function `processNotes` after text splitting: per-chunk stage, then the
reduction tail with the source's group token limit 2000. -/
def processNotesModel (co : Str → Option Str) (go : List Str → Option Str)
    (fo : List Str → Option Str) (chunks : List Str) : PipelineRun :=
  match chunkStage co chunks with
  | (none, n) => ⟨.error "No content received from API".toList, n, 0, 0⟩
  | (some processed, n) =>
    let r := reduceStage go fo 2000 processed
    ⟨r.1, n, r.2.1, r.2.2⟩

/-- Definition following the words of the specification for the overlap
resolver, for comparison with `resolveOverlap`: all word-sequence suffixes
of the previous text's last sentence of length at least three, longest
first; the first (hence longest) candidate that occurs case-insensitively
in the current text; trim to everything after the match exactly when the
match sits in the first half of the current text, otherwise (and in every
failure case) return the current text changed only by whitespace
trimming. -/
def resolveOverlapSpec (prevText rawCurrent : Str) : Str :=
  let currentText := jtrim rawCurrent
  let lastSentences := (splitOnPunct prevText).filter fun s => 0 < (jtrim s).length
  let lastSentence := jtrim (lastSentences.getLast?.getD [])
  if lastSentence.isEmpty then currentText
  else
    let words := splitWsRuns lastSentence
    let candidates := ((List.range' 3 (words.length - 2)).reverse).map (phraseOf words)
    match candidates.find? (fun p => jincludes (jlower currentText) (jlower p)) with
    | none => currentText
    | some p =>
      match indexOfFrom (jlower p) (jlower currentText) 0 with
      | some idx =>
        if 2 * idx < currentText.length then jtrim (currentText.drop (idx + p.length))
        else currentText
      | none => currentText

/-!  Helper lemmas. -/

theorem dropWhile_noWs (w : Str) (hw : ∀ c ∈ w, isWsChar c = false) :
    w.dropWhile isWsChar = w := by
  cases w with
  | nil => rfl
  | cons c cs => simp [List.dropWhile_cons, hw c (List.mem_cons_self c cs)]

theorem jtrim_noWs (w : Str) (hw : ∀ c ∈ w, isWsChar c = false) : jtrim w = w := by
  unfold jtrim
  rw [dropWhile_noWs w hw, dropWhile_noWs w.reverse
    (fun c hc => hw c (List.mem_reverse.mp hc)), List.reverse_reverse]

theorem splitSentGo_noWs :
    ∀ (w : Str), (∀ c ∈ w, isWsChar c = false) →
      ∀ (prev : Char) (cur : Str) (acc : List Str),
        splitSentGo false prev cur acc w = ((cur.reverse ++ w) :: acc).reverse
  | [], _, prev, cur, acc => by simp [splitSentGo]
  | c :: cs, hw, prev, cur, acc => by
    have hc : isWsChar c = false := hw c (List.mem_cons_self c cs)
    have ih := splitSentGo_noWs cs (fun x hx => hw x (List.mem_cons_of_mem c hx))
      c (c :: cur) acc
    simp only [splitSentGo, hc, Bool.and_false, Bool.false_and, Bool.false_eq_true,
      if_false, ih, List.reverse_cons, List.append_assoc, List.singleton_append]

theorem splitSentences_noWs (w : Str) (hw : ∀ c ∈ w, isWsChar c = false) :
    splitSentences w = [w] := by
  unfold splitSentences
  rw [splitSentGo_noWs w hw]
  simp

theorem splitSpace_noSpace :
    ∀ (w : Str), (∀ c ∈ w, (c == ' ') = false) → splitSpace w = [w]
  | [], _ => rfl
  | c :: cs, h => by
    have hc : (c == ' ') = false := h c (List.mem_cons_self c cs)
    have ih := splitSpace_noSpace cs (fun x hx => h x (List.mem_cons_of_mem c hx))
    simp [splitSpace, hc, ih]

/-- Shared computation: on a single whitespace-free word longer than the
chunk size, the splitter first pushes the accumulated empty chunk and then
the word itself. -/
theorem splitTextIntoChunks_single_word (w : Str) (n : Nat)
    (hw : ∀ c ∈ w, isWsChar c = false) (hn : n < w.length) :
    splitTextIntoChunks w n = [[], w] := by
  have hsp : splitSpace w = [w] := by
    refine splitSpace_noSpace w (fun c hc => ?_)
    have := hw c hc
    simp [isWsChar] at this
    simp [this.1]
  unfold splitTextIntoChunks
  rw [splitSentences_noWs w hw]
  have hne : w.isEmpty = false := by
    cases w with
    | nil => simp at hn
    | cons c cs => rfl
  have hnil : jtrim [] = [] := rfl
  simp only [splitSentLoop, List.nil_append, hn, if_true, List.isEmpty_nil, hsp,
    splitWordsLoop, if_pos hn]
  simp [splitSentLoop, hne, jtrim_noWs w hw, hnil]

/-!  Claim theorems. -/

/-- C3, counterexample: on the spec's own example pair, the resolver does
not return the text claimed (the sentence-final period of the duplicated
phrase survives the cut, because the candidate phrases are extracted after
splitting away the terminator characters). -/
theorem resolveOverlap_example_cex :
    resolveOverlap
        "The patient reports mild pain. Follow up in two weeks.".toList
        "Follow up in two weeks. The patient should return for evaluation.".toList ≠
      "The patient should return for evaluation.".toList := by decide

/-- C3, amended: on the example pair the resolver trims the current text to
everything after the matched phrase, which still starts with the period
that followed the duplicate. -/
theorem resolveOverlap_example :
    resolveOverlap
        "The patient reports mild pain. Follow up in two weeks.".toList
        "Follow up in two weeks. The patient should return for evaluation.".toList =
      ". The patient should return for evaluation.".toList := by decide

/-- C10: a single whitespace-free word longer than the chunk size makes the
splitter return exactly two chunks, the empty string pushed by the word
fallback followed by the word itself, emitted whole. -/
theorem splitTextIntoChunks_oversized_word (w : Str) (n : Nat)
    (hw : ∀ c ∈ w, isWsChar c = false) (hn : n < w.length) :
    splitTextIntoChunks w n = [[], w] :=
  splitTextIntoChunks_single_word w n hw hn

/-- Witness for C10 at a concrete oversized word. -/
theorem splitTextIntoChunks_oversized_word_witness :
    (∀ c ∈ "aaaaaa".toList, isWsChar c = false) ∧ 4 < "aaaaaa".toList.length ∧
      splitTextIntoChunks "aaaaaa".toList 4 = [[], "aaaaaa".toList] :=
  ⟨by decide, by decide, splitTextIntoChunks_oversized_word _ 4 (by decide) (by decide)⟩

/-- C5, counterexample: with limit 6, the text made of the two short
sentences joined by a space is returned as one chunk of length 7 that
contains a space, so it is neither within the limit nor a single word (the
greedy check ignores the joining space that the append then adds). -/
theorem splitTextIntoChunks_length_cex :
    splitTextIntoChunks "ab. cd.".toList 6 = ["ab. cd.".toList] ∧
      6 < "ab. cd.".toList.length ∧ ' ' ∈ "ab. cd.".toList := by decide

/-- C8, counterexample: on an empty chunk sequence the pipeline still
issues one final-combine call (and returns that call's content), instead of
returning an empty result with zero external calls. -/
theorem processNotesModel_empty_cex :
    (processNotesModel (fun c => some c) (fun _ => some [])
        (fun _ => some "done".toList) []).finalCalls = 1 ∧
      (processNotesModel (fun c => some c) (fun _ => some [])
          (fun _ => some "done".toList) []).result = Except.ok "done".toList := by
  decide

/-- C8, amended: on an empty chunk sequence the pipeline makes no per-chunk
call and no group-combine call, but always makes exactly one final
combination call, whose missing content is the only possible failure. -/
theorem processNotesModel_empty (co : Str → Option Str) (go : List Str → Option Str)
    (fo : List Str → Option Str) :
    processNotesModel co go fo [] =
      ⟨match fo [] with
        | none => Except.error "No content received from final API call".toList
        | some v => Except.ok v, 0, 0, 1⟩ := by
  cases h : fo [] <;>
    simp [processNotesModel, chunkStage, reduceStage, combineStage, combineLoop, h]

theorem scheduleSteps_bounded :
    ∀ (chunks : List Str) (counter limit : Nat), counter ≤ limit →
      (∀ c ∈ chunks, estimateTokens c ≤ limit) →
      ∀ e ∈ scheduleSteps limit counter chunks, e.2 ≤ limit := by
  intro chunks
  induction chunks with
  | nil => intro counter limit _ _ e he; simp [scheduleSteps] at he
  | cons c cs ih =>
    intro counter limit hc hall e he
    have hhead : estimateTokens c ≤ limit := hall c (List.mem_cons_self c cs)
    have htail : ∀ x ∈ cs, estimateTokens x ≤ limit :=
      fun x hx => hall x (List.mem_cons_of_mem c hx)
    by_cases h : limit < counter + estimateTokens c
    · rw [scheduleSteps, if_pos h] at he
      rcases List.mem_cons.mp he with rfl | hmem
      · exact hhead
      · exact ih (estimateTokens c) limit hhead htail e hmem
    · rw [scheduleSteps, if_neg h] at he
      rcases List.mem_cons.mp he with rfl | hmem
      · exact Nat.le_of_not_lt h
      · exact ih (counter + estimateTokens c) limit (Nat.le_of_not_lt h) htail e hmem

/-- C1, counterexample: notes consisting of one 32004-character
whitespace-free word make the splitter emit that word as one chunk of
estimated cost 8001; after the pause resets the counter, the chunk is
dispatched anyway, so the counter within the fresh window reaches 8001,
beyond the 8000 window limit. -/
theorem processNotesCounters_overflow_cex :
    (true, 8001) ∈ processNotesCounters (List.replicate 32004 'a') ∧ 8000 < 8001 := by
  have hw : ∀ c ∈ List.replicate 32004 'a', isWsChar c = false := by
    intro c hc
    rw [List.eq_of_mem_replicate hc]
    decide
  have hlen : (List.replicate 32004 'a').length = 32004 := List.length_replicate 32004 'a'
  have hsplit := splitTextIntoChunks_single_word (List.replicate 32004 'a') 300 hw
    (by rw [hlen]; omega)
  have hunfold : ∀ s : Str, estimateTokens s = (s.length + 3) / 4 := fun _ => rfl
  have hest : estimateTokens (List.replicate 32004 'a') = 8001 :=
    (hunfold (List.replicate 32004 'a')).trans
      ((congrArg (fun m => (m + 3) / 4) hlen).trans (by decide))
  have hcons : ∀ (limit counter : Nat) (c : Str) (rest : List Str),
      scheduleSteps limit counter (c :: rest) =
        if limit < counter + estimateTokens c then
          (true, estimateTokens c) :: scheduleSteps limit (estimateTokens c) rest
        else
          (false, counter + estimateTokens c) ::
            scheduleSteps limit (counter + estimateTokens c) rest :=
    fun _ _ _ _ => rfl
  have h0 : estimateTokens ([] : Str) = 0 := rfl
  refine ⟨?_, by omega⟩
  unfold processNotesCounters
  rw [hsplit, hcons, h0, if_neg (by omega), hcons, hest, if_pos (by omega)]
  exact List.mem_cons_of_mem _ (List.mem_cons_self _ _)

/-- C1, amended: provided every chunk that the splitter produces has
estimated cost at most the 8000-token window limit, the rolling counter of
the notes pipeline never exceeds that limit: a dispatch that would push it
over triggers the pause that resets the counter to zero before the cost is
added. -/
theorem processNotesCounters_bounded (rawNotes : Str)
    (h : ∀ c ∈ splitTextIntoChunks rawNotes 300, estimateTokens c ≤ 8000) :
    ∀ e ∈ processNotesCounters rawNotes, e.2 ≤ 8000 :=
  scheduleSteps_bounded (splitTextIntoChunks rawNotes 300) 0 8000 (Nat.zero_le _) h

/-- Witness for C1's amended theorem at a concrete small input. -/
theorem processNotesCounters_bounded_witness :
    (∀ c ∈ splitTextIntoChunks "hi.".toList 300, estimateTokens c ≤ 8000) ∧
      ∀ e ∈ processNotesCounters "hi.".toList, e.2 ≤ 8000 :=
  ⟨by decide, processNotesCounters_bounded _ (by decide)⟩

/-- C6, counterexample: an empty blob has size at most the chunk size, yet
the splitter returns no chunk at all rather than one chunk spanning the
whole input, because the ceiling of zero divided by the chunk size is
zero. -/
theorem splitAudioFile_empty_cex :
    splitAudioFile 0 5 2 = [] ∧ (splitAudioFile 0 5 2).length ≠ 1 := by decide

/-- C6, amended: for a positive chunk size the splitter produces
`ceil(size / chunkSize)` chunks (characterized below by the two product
bounds), chunk `i` spans exactly the claimed byte range, and the degenerate
one-chunk case holds for every non-empty blob of size at most the chunk
size; an empty blob yields no chunks. -/
theorem splitAudioFile_spec (size chunkSize overlapSize : Nat) (hcs : 0 < chunkSize) :
    (splitAudioFile size chunkSize overlapSize).length = (size + chunkSize - 1) / chunkSize ∧
    size ≤ ((size + chunkSize - 1) / chunkSize) * chunkSize ∧
    (0 < size → chunkSize * ((size + chunkSize - 1) / chunkSize - 1) < size) ∧
    (∀ i, i < (size + chunkSize - 1) / chunkSize →
      (splitAudioFile size chunkSize overlapSize)[i]? =
        some (max 0 ((i : Int) * chunkSize - (if 0 < i then (overlapSize : Int) else 0)),
          min (size : Int) (((i : Int) + 1) * chunkSize +
            (if i < (size + chunkSize - 1) / chunkSize - 1 then (overlapSize : Int) else 0)))) ∧
    (0 < size → size ≤ chunkSize →
      splitAudioFile size chunkSize overlapSize = [(0, (size : Int))]) := by
  have hdm := Nat.div_add_mod (size + chunkSize - 1) chunkSize
  have hmod : (size + chunkSize - 1) % chunkSize < chunkSize :=
    Nat.mod_lt _ hcs
  refine ⟨?_, ?_, ?_, ?_, ?_⟩
  · simp only [splitAudioFile, List.length_map, List.length_range]
  · rcases Nat.eq_zero_or_pos size with h0 | h0
    · subst h0
      have hz : (0 + chunkSize - 1) / chunkSize = 0 := Nat.div_eq_of_lt (by omega)
      rw [hz]
      omega
    · rw [Nat.mul_comm]
      generalize b : chunkSize * ((size + chunkSize - 1) / chunkSize) = P at hdm ⊢
      omega
  · intro h0
    have hq1 : 1 ≤ (size + chunkSize - 1) / chunkSize :=
      (Nat.one_le_div_iff hcs).mpr (by omega)
    obtain ⟨q1, hq⟩ := Nat.exists_eq_add_of_le hq1
    rw [hq] at hdm ⊢
    have hred : 1 + q1 - 1 = q1 := by omega
    rw [hred, Nat.mul_add, Nat.mul_one] at *
    generalize b : chunkSize * q1 = P at hdm ⊢
    omega
  · intro i hi
    unfold splitAudioFile
    rw [List.getElem?_map, List.getElem?_range hi]
    rfl
  · intro h0 hle
    have hq : (size + chunkSize - 1) / chunkSize = 1 :=
      Nat.div_eq_of_lt_le (by omega) (by omega)
    unfold splitAudioFile
    rw [hq]
    show (List.range 1).map (fun (i : Nat) =>
        (max 0 ((i : Int) * chunkSize - (if 0 < i then (overlapSize : Int) else 0)),
          min (size : Int) (((i : Int) + 1) * chunkSize +
            (if i < 1 - 1 then (overlapSize : Int) else 0)))) = [(0, (size : Int))]
    have hr1 : List.range 1 = [0] := rfl
    rw [hr1, List.map_cons, List.map_nil]
    have hfst : max 0 (((0 : Nat) : Int) * chunkSize -
        (if 0 < (0 : Nat) then (overlapSize : Int) else 0)) = 0 := by
      norm_num
    have hsnd : min (size : Int) ((((0 : Nat) : Int) + 1) * chunkSize +
        (if (0 : Nat) < 1 - 1 then (overlapSize : Int) else 0)) = (size : Int) := by
      have hc : ((size : Int)) ≤ ((chunkSize : Int)) := by exact_mod_cast hle
      norm_num
      omega
    rw [hfst, hsnd]

/-- Witness for C6's amended theorem at a concrete input. -/
theorem splitAudioFile_spec_witness :
    (splitAudioFile 3 5 2).length = (3 + 5 - 1) / 5 ∧
      splitAudioFile 3 5 2 = [(0, (3 : Int))] :=
  ⟨(splitAudioFile_spec 3 5 2 (by decide)).1,
    (splitAudioFile_spec 3 5 2 (by decide)).2.2.2.2 (by decide) (by decide)⟩

theorem retryGo_run (op : Nat → CallOutcome) :
    ∀ (fuel d a : Nat) (bs : List Nat), ∃ n : Nat,
      (retryGo op d a bs fuel).backoffs = bs ++ (List.range n).map (fun i => d * 2 ^ i) ∧
      (retryGo op d a bs fuel).attempts =
        a + n + (if (retryGo op d a bs fuel).result.isSome then 1 else 0) ∧
      (retryGo op d a bs fuel).attempts ≤ a + fuel ∧
      (∀ k, a ≤ k → k + 1 < (retryGo op d a bs fuel).attempts →
        ∃ m, op k = CallOutcome.err m ∧ msgHas429 m = true) ∧
      (a < (retryGo op d a bs fuel).attempts →
        (retryGo op d a bs fuel).result =
          some (match op ((retryGo op d a bs fuel).attempts - 1) with
                | CallOutcome.ok v => Except.ok v
                | CallOutcome.err m => Except.error m)) ∧
      ((retryGo op d a bs fuel).result = none → fuel = 0) ∧
      (∀ k, a ≤ k → k < (retryGo op d a bs fuel).attempts →
        ∀ m2, op k = CallOutcome.err m2 → msgHas429 m2 = true →
          k + 2 ≤ a + fuel → k + 1 < (retryGo op d a bs fuel).attempts) := by
  intro fuel
  induction fuel with
  | zero =>
    intro d a bs
    refine ⟨0, by simp [retryGo], by simp [retryGo], by simp [retryGo], ?_, ?_,
      fun _ => rfl, ?_⟩
    · intro k hk hk2
      simp [retryGo] at hk2
      omega
    · intro h
      simp [retryGo] at h
    · intro k hk1 hk2 m2 hm2 h429b hbound
      simp [retryGo] at hk2 ⊢
      omega
  | succ fuel ih =>
    intro d a bs
    cases hop : op a with
    | ok v =>
      have hgo : retryGo op d a bs (fuel + 1) = ⟨some (Except.ok v), a + 1, bs⟩ := by
        simp only [retryGo, hop]
      refine ⟨0, ?_, ?_, ?_, ?_, ?_, ?_, ?_⟩ <;> rw [hgo]
      · simp
      · simp
      · simp
      · intro k hk hk2
        simp at hk2
        omega
      · intro _
        show some (Except.ok v) = some (match op (a + 1 - 1) with
          | CallOutcome.ok v => Except.ok v
          | CallOutcome.err m => Except.error m)
        have ha1 : a + 1 - 1 = a := rfl
        rw [ha1, hop]
      · intro h
        simp at h
      · intro k hk1 hk2 m2 hm2 h429b hbound
        simp at hk2
        have hka : k = a := by omega
        rw [hka, hop] at hm2
        simp at hm2
    | err m =>
      by_cases hguard : (msgHas429 m && decide (1 ≤ fuel)) = true
      · have hgo : retryGo op d a bs (fuel + 1) =
            retryGo op (d * 2) (a + 1) (bs ++ [d]) fuel := by
          simp only [retryGo, hop, hguard, if_true]
        obtain ⟨h429, hfuel⟩ : msgHas429 m = true ∧ decide (1 ≤ fuel) = true := by
          simpa using hguard
        have hfuel1 : 1 ≤ fuel := of_decide_eq_true hfuel
        obtain ⟨n, hb, ha, hle, h4, h5, h6, h7⟩ := ih (d * 2) (a + 1) (bs ++ [d])
        have hsome : (retryGo op (d * 2) (a + 1) (bs ++ [d]) fuel).result.isSome = true := by
          cases hres : (retryGo op (d * 2) (a + 1) (bs ++ [d]) fuel).result with
          | none => exact absurd (h6 hres) (by omega)
          | some r => rfl
        have haN : (retryGo op (d * 2) (a + 1) (bs ++ [d]) fuel).attempts = a + 1 + n + 1 := by
          rw [ha, hsome, if_pos rfl]
        have hleN : a + 1 + n + 1 ≤ a + 1 + fuel := by
          rw [haN] at hle
          exact hle
        refine ⟨n + 1, ?_, ?_, ?_, ?_, ?_, ?_, ?_⟩ <;> rw [hgo]
        · rw [hb, List.append_assoc]
          congr 1
          rw [List.range_succ_eq_map]
          simp only [List.map_cons, List.map_map, pow_zero, mul_one, List.singleton_append]
          congr 1
          refine List.map_congr_left (fun i _ => ?_)
          simp only [Function.comp_apply, pow_succ]
          ring
        · rw [haN, hsome, if_pos rfl]
          omega
        · rw [haN]
          omega
        · intro k hk hk2
          rcases Nat.eq_or_lt_of_le hk with rfl | hk3
          · exact ⟨m, hop, h429⟩
          · exact h4 k hk3 hk2
        · intro h
          refine h5 ?_
          rw [haN]
          omega
        · intro h
          exact absurd (h6 h) (by omega)
        · intro k hk1 hk2 m2 hm2 h429b hbound
          rcases Nat.eq_or_lt_of_le hk1 with rfl | hk3
          · rw [haN]
            omega
          · exact h7 k hk3 hk2 m2 hm2 h429b (by omega)
      · have hgo : retryGo op d a bs (fuel + 1) = ⟨some (Except.error m), a + 1, bs⟩ := by
          simp only [retryGo, hop, if_neg hguard]
        refine ⟨0, ?_, ?_, ?_, ?_, ?_, ?_, ?_⟩ <;> rw [hgo]
        · simp
        · simp
        · simp
        · intro k hk hk2
          simp at hk2
          omega
        · intro _
          show some (Except.error m) = some (match op (a + 1 - 1) with
            | CallOutcome.ok v => Except.ok v
            | CallOutcome.err m => Except.error m)
          have ha1 : a + 1 - 1 = a := rfl
          rw [ha1, hop]
        · intro h
          simp at h
        · intro k hk1 hk2 m2 hm2 h429b hbound
          simp at hk2
          have hka : k = a := by omega
          rw [hka, hop] at hm2
          injection hm2 with heq
          subst heq
          refine absurd ?_ hguard
          have hf : 1 ≤ fuel := by omega
          rw [h429b, decide_eq_true hf]
          rfl

/-- C2: every run of the retry wrapper makes at most `maxRetries` attempts;
the backoff delays waited form the doubling sequence starting at the
initial delay, one delay per retry (`attempts = backoffs + 1` whenever the
loop returned, and it always returns when `maxRetries` is positive); every
attempt that was followed by another one had failed with a message
containing 429, so any other failure propagates at once with no retry;
conversely every 429 failure with retry budget remaining is actually
followed by another attempt; and the returned value is exactly the outcome
of the last attempt (the thrown error when that outcome is a failure). -/
theorem retryWithBackoff_spec (op : Nat → CallOutcome) (maxRetries initialDelay : Nat) :
    (retryWithBackoff op maxRetries initialDelay).attempts ≤ maxRetries ∧
    (retryWithBackoff op maxRetries initialDelay).backoffs =
      (List.range (retryWithBackoff op maxRetries initialDelay).backoffs.length).map
        (fun i => initialDelay * 2 ^ i) ∧
    (retryWithBackoff op maxRetries initialDelay).attempts =
      (retryWithBackoff op maxRetries initialDelay).backoffs.length +
        (if (retryWithBackoff op maxRetries initialDelay).result.isSome then 1 else 0) ∧
    ((retryWithBackoff op maxRetries initialDelay).result = none → maxRetries = 0) ∧
    (∀ k, k + 1 < (retryWithBackoff op maxRetries initialDelay).attempts →
      ∃ m, op k = CallOutcome.err m ∧ msgHas429 m = true) ∧
    (∀ k m, op k = CallOutcome.err m → msgHas429 m = true →
      k < (retryWithBackoff op maxRetries initialDelay).attempts →
      k + 1 < maxRetries →
      k + 1 < (retryWithBackoff op maxRetries initialDelay).attempts) ∧
    (0 < (retryWithBackoff op maxRetries initialDelay).attempts →
      (retryWithBackoff op maxRetries initialDelay).result =
        some (match op ((retryWithBackoff op maxRetries initialDelay).attempts - 1) with
              | CallOutcome.ok v => Except.ok v
              | CallOutcome.err m => Except.error m)) := by
  obtain ⟨n, hb, ha, hle, h4, h5, h6, h7⟩ := retryGo_run op maxRetries initialDelay 0 []
  unfold retryWithBackoff at *
  have hlen : (retryGo op initialDelay 0 [] maxRetries).backoffs.length = n := by
    rw [hb]
    simp
  refine ⟨by omega, ?_, ?_, h6, fun k hk => h4 k (Nat.zero_le k) hk, ?_,
    fun h => h5 (by omega)⟩
  · rw [hb]
    simp
  · rw [ha, hlen]
    simp
  · intro k m hm h429 hk hkmax
    exact h7 k (Nat.zero_le k) hk m hm h429 (by omega)

/-- Witness for C2 at a concrete operation that is rate limited on its
first attempt and then succeeds: the theorem's retry clause, with every
hypothesis discharged at this input, yields the second attempt. -/
theorem retryWithBackoff_spec_witness :
    (fun k => if k = 0 then CallOutcome.err "http 429".toList
      else CallOutcome.ok "v".toList) 0 = CallOutcome.err "http 429".toList ∧
    msgHas429 "http 429".toList = true ∧
    0 < (retryWithBackoff (fun k => if k = 0 then CallOutcome.err "http 429".toList
      else CallOutcome.ok "v".toList) 5 5000).attempts ∧
    0 + 1 < 5 ∧
    0 + 1 < (retryWithBackoff (fun k => if k = 0 then CallOutcome.err "http 429".toList
      else CallOutcome.ok "v".toList) 5 5000).attempts :=
  ⟨by decide, by decide, by decide, by decide,
    (retryWithBackoff_spec (fun k => if k = 0 then CallOutcome.err "http 429".toList
        else CallOutcome.ok "v".toList) 5 5000).2.2.2.2.2.1 0 "http 429".toList
      (by decide) (by decide) (by decide) (by decide)⟩

theorem dropWhile_sublist_self (p : Char → Bool) :
    ∀ l : Str, List.Sublist (l.dropWhile p) l
  | [] => List.Sublist.refl []
  | c :: cs => by
    rw [List.dropWhile_cons]
    by_cases h : p c = true
    · rw [if_pos h]
      exact (dropWhile_sublist_self p cs).trans (List.sublist_cons_self c cs)
    · rw [if_neg h]

theorem jtrim_sublist (s : Str) : List.Sublist (jtrim s) s := by
  unfold jtrim
  have h1 : List.Sublist ((s.dropWhile isWsChar).reverse.dropWhile isWsChar)
      (s.dropWhile isWsChar).reverse := dropWhile_sublist_self _ _
  have h2 := h1.reverse
  rw [List.reverse_reverse] at h2
  exact h2.trans (dropWhile_sublist_self _ s)

theorem jtrim_length_le (s : Str) : (jtrim s).length ≤ s.length :=
  (jtrim_sublist s).length_le

theorem jtrim_not_mem {c : Char} {s : Str} (h : c ∉ s) : c ∉ jtrim s :=
  fun hc => h ((jtrim_sublist s).subset hc)

theorem splitSpace_no_space :
    ∀ s : Str, ∀ w ∈ splitSpace s, ' ' ∉ w
  | [] => by
    intro w hw
    simp [splitSpace] at hw
    simp [hw]
  | c :: cs => by
    intro w hw
    have ih := splitSpace_no_space cs
    by_cases hc : (c == ' ') = true
    · rw [splitSpace, if_pos hc] at hw
      rcases List.mem_cons.mp hw with rfl | hmem
      · simp
      · exact ih w hmem
    · rw [splitSpace, if_neg hc] at hw
      rcases hrest : splitSpace cs with _ | ⟨r, rs⟩
      · rw [hrest] at hw
        rcases List.mem_cons.mp hw with rfl | hmem
        · intro hmem2
          rcases List.mem_singleton.mp hmem2 with rfl
          simp at hc
        · simp at hmem
      · rw [hrest] at hw
        rcases List.mem_cons.mp hw with rfl | hmem
        · intro hmem2
          rcases List.mem_cons.mp hmem2 with rfl | hmem3
          · simp at hc
          · exact ih r (by rw [hrest]; exact List.mem_cons_self r rs) hmem3
        · exact ih w (by rw [hrest]; exact List.mem_cons_of_mem r hmem)

theorem splitWordsLoop_invariant (n : Nat) :
    ∀ (ws : List Str) (tc : Str) (chunks : List Str),
      (∀ c ∈ chunks, c.length ≤ n + 1 ∨ ' ' ∉ c) →
      (tc.length ≤ n + 1 ∨ ' ' ∉ tc) →
      (∀ w ∈ ws, ' ' ∉ w) →
      (∀ c ∈ (splitWordsLoop n tc chunks ws).1, c.length ≤ n + 1 ∨ ' ' ∉ c) ∧
        ((splitWordsLoop n tc chunks ws).2.length ≤ n + 1 ∨
          ' ' ∉ (splitWordsLoop n tc chunks ws).2) := by
  intro ws
  induction ws with
  | nil =>
    intro tc chunks hchunks htc _
    exact ⟨hchunks, htc⟩
  | cons w ws ih =>
    intro tc chunks hchunks htc hws
    have hw : ' ' ∉ w := hws w (List.mem_cons_self w ws)
    have hws2 : ∀ x ∈ ws, ' ' ∉ x := fun x hx => hws x (List.mem_cons_of_mem w hx)
    rw [splitWordsLoop]
    by_cases h : n < (tc ++ w).length
    · rw [if_pos h]
      refine ih w (chunks ++ [jtrim tc]) ?_ (Or.inr hw) hws2
      intro c hc
      rcases List.mem_append.mp hc with hc1 | hc2
      · exact hchunks c hc1
      · rcases List.mem_singleton.mp hc2 with rfl
        rcases htc with h1 | h2
        · exact Or.inl ((jtrim_length_le tc).trans h1)
        · exact Or.inr (jtrim_not_mem h2)
    · rw [if_neg h]
      refine ih _ chunks hchunks ?_ hws2
      by_cases he : tc.isEmpty
      · rw [if_pos he]
        exact Or.inr hw
      · rw [if_neg he]
        refine Or.inl ?_
        have hlen : (tc ++ w).length ≤ n := Nat.le_of_not_lt h
        rw [List.length_append] at hlen
        rw [List.length_append, List.length_cons]
        omega

theorem splitSentLoop_invariant (n : Nat) :
    ∀ (ss : List Str) (cc : Str) (chunks : List Str),
      (∀ c ∈ chunks, c.length ≤ n + 1 ∨ ' ' ∉ c) →
      (cc.length ≤ n + 1 ∨ ' ' ∉ cc) →
      ∀ c ∈ splitSentLoop n cc chunks ss, c.length ≤ n + 1 ∨ ' ' ∉ c := by
  intro ss
  induction ss with
  | nil =>
    intro cc chunks hchunks hcc c hc
    rw [splitSentLoop] at hc
    by_cases he : cc.isEmpty
    · rw [if_pos he] at hc
      exact hchunks c hc
    · rw [if_neg he] at hc
      rcases List.mem_append.mp hc with hc1 | hc2
      · exact hchunks c hc1
      · rcases List.mem_singleton.mp hc2 with rfl
        rcases hcc with h1 | h2
        · exact Or.inl ((jtrim_length_le cc).trans h1)
        · exact Or.inr (jtrim_not_mem h2)
  | cons s ss ih =>
    intro cc chunks hchunks hcc c hc
    rw [splitSentLoop] at hc
    by_cases h : n < (cc ++ s).length
    · rw [if_pos h] at hc
      have hchunks1 : ∀ x ∈ (if cc.isEmpty then chunks else chunks ++ [jtrim cc]),
          x.length ≤ n + 1 ∨ ' ' ∉ x := by
        by_cases he : cc.isEmpty
        · rw [if_pos he]
          exact hchunks
        · rw [if_neg he]
          intro x hx
          rcases List.mem_append.mp hx with hx1 | hx2
          · exact hchunks x hx1
          · rcases List.mem_singleton.mp hx2 with rfl
            rcases hcc with h1 | h2
            · exact Or.inl ((jtrim_length_le cc).trans h1)
            · exact Or.inr (jtrim_not_mem h2)
      by_cases h2 : n < s.length
      · rw [if_pos h2] at hc
        have hinv := splitWordsLoop_invariant n (splitSpace s) []
          (if cc.isEmpty then chunks else chunks ++ [jtrim cc]) hchunks1
          (Or.inl (by simp)) (splitSpace_no_space s)
        exact ih _ _ hinv.1 hinv.2 c hc
      · rw [if_neg h2] at hc
        exact ih s _ hchunks1 (Or.inl (by omega)) c hc
    · rw [if_neg h] at hc
      have hccs : ((if cc.isEmpty then s else cc ++ ' ' :: s)).length ≤ n + 1 ∨
          ' ' ∉ (if cc.isEmpty then s else cc ++ ' ' :: s) := by
        have hlen : (cc ++ s).length ≤ n := Nat.le_of_not_lt h
        rw [List.length_append] at hlen
        by_cases he : cc.isEmpty
        · rw [if_pos he]
          exact Or.inl (by omega)
        · rw [if_neg he]
          refine Or.inl ?_
          rw [List.length_append, List.length_cons]
          omega
      exact ih _ chunks hchunks hccs c hc

/-- C5, amended: every chunk produced by the token-bounded splitter has
length at most `maxUnitsPerChunk + 1` (one more than the claimed limit,
because the greedy length check ignores the joining space that the append
then inserts), except chunks that consist of a single space-free word
exceeding the limit, which are emitted whole and alone. -/
theorem splitTextIntoChunks_length_bound (text : Str) (n : Nat) :
    ∀ c ∈ splitTextIntoChunks text n, c.length ≤ n + 1 ∨ ' ' ∉ c := by
  intro c hc
  exact splitSentLoop_invariant n (splitSentences text) [] []
    (by intro x hx; simp at hx) (Or.inl (by simp)) c hc

/-- Witness for C5's amended theorem at a concrete input. -/
theorem splitTextIntoChunks_length_bound_witness :
    "ab".toList ∈ splitTextIntoChunks "ab".toList 5 ∧
      ("ab".toList.length ≤ 5 + 1 ∨ ' ' ∉ "ab".toList) :=
  ⟨by decide, splitTextIntoChunks_length_bound "ab".toList 5 "ab".toList (by decide)⟩

theorem combineLoop_eq_groupLoop (oracle : List Str → Option Str) (limit : Nat) :
    ∀ (chunks : List Str) (cg : List Str) (cgt : Nat) (comb : List Str) (calls : Nat),
      combineLoop oracle limit ⟨cg, cgt, comb, calls⟩ chunks =
        ⟨(groupLoop limit cg cgt chunks).2.1, (groupLoop limit cg cgt chunks).2.2,
          comb ++ ((groupLoop limit cg cgt chunks).1).filterMap oracle,
          calls + ((groupLoop limit cg cgt chunks).1).length⟩ := by
  intro chunks
  induction chunks with
  | nil =>
    intro cg cgt comb calls
    simp [combineLoop, groupLoop]
  | cons chunk rest ih =>
    intro cg cgt comb calls
    rw [combineLoop, groupLoop]
    by_cases h : limit < cgt + estimateTokens chunk
    · rw [if_pos h, if_pos h]
      rw [ih]
      cases horacle : oracle cg with
      | none =>
        simp only [List.filterMap_cons, horacle, List.length_cons, CombineState.mk.injEq]
        exact ⟨trivial, trivial, trivial, by omega⟩
      | some c =>
        simp only [List.filterMap_cons, horacle, List.length_cons,
          List.append_assoc, List.singleton_append, CombineState.mk.injEq]
        exact ⟨trivial, trivial, trivial, by omega⟩
    · rw [if_neg h, if_neg h]
      exact ih (cg ++ [chunk]) (cgt + estimateTokens chunk) comb calls

theorem combineStage_eq (oracle : List Str → Option Str) (limit : Nat)
    (chunks : List Str) :
    combineStage oracle limit chunks =
      ((groupsOf limit chunks).filterMap oracle, (groupsOf limit chunks).length) := by
  unfold combineStage groupsOf
  rw [combineLoop_eq_groupLoop]
  by_cases he : (groupLoop limit [] 0 chunks).2.1.isEmpty
  · rw [if_pos he, if_pos he]
    simp
  · rw [if_neg he, if_neg he]
    cases horacle : oracle (groupLoop limit [] 0 chunks).2.1 with
    | none =>
      simp [List.filterMap_append, horacle]
    | some c =>
      simp [List.filterMap_append, horacle]

/-- C7: on three chunks of estimated token costs 100, 100 and 150 with a
group token limit of 200, the reducer forms exactly the two groups
`[chunk0, chunk1]` and `[chunk2]`, hence issues exactly two group-combine
calls, and the reduction tail always issues exactly one final combination
call. -/
theorem reduceStage_scenario (go fo : List Str → Option Str) :
    estimateTokens (List.replicate 400 'a') = 100 ∧
    estimateTokens (List.replicate 400 'b') = 100 ∧
    estimateTokens (List.replicate 600 'c') = 150 ∧
    groupsOf 200 [List.replicate 400 'a', List.replicate 400 'b',
        List.replicate 600 'c'] =
      [[List.replicate 400 'a', List.replicate 400 'b'], [List.replicate 600 'c']] ∧
    (reduceStage go fo 200 [List.replicate 400 'a', List.replicate 400 'b',
        List.replicate 600 'c']).2.1 = 2 ∧
    (reduceStage go fo 200 [List.replicate 400 'a', List.replicate 400 'b',
        List.replicate 600 'c']).2.2 = 1 := by
  have hunfold : ∀ s : Str, estimateTokens s = (s.length + 3) / 4 := fun _ => rfl
  have hea : estimateTokens (List.replicate 400 'a') = 100 :=
    (hunfold _).trans
      ((congrArg (fun m => (m + 3) / 4) (List.length_replicate 400 'a')).trans (by decide))
  have heb : estimateTokens (List.replicate 400 'b') = 100 :=
    (hunfold _).trans
      ((congrArg (fun m => (m + 3) / 4) (List.length_replicate 400 'b')).trans (by decide))
  have hec : estimateTokens (List.replicate 600 'c') = 150 :=
    (hunfold _).trans
      ((congrArg (fun m => (m + 3) / 4) (List.length_replicate 600 'c')).trans (by decide))
  have gcons : ∀ (limit cgt : Nat) (cg : List Str) (chunk : Str) (rest : List Str),
      groupLoop limit cg cgt (chunk :: rest) =
        if limit < cgt + estimateTokens chunk then
          (cg :: (groupLoop limit [chunk] (estimateTokens chunk) rest).1,
            (groupLoop limit [chunk] (estimateTokens chunk) rest).2)
        else groupLoop limit (cg ++ [chunk]) (cgt + estimateTokens chunk) rest :=
    fun _ _ _ _ _ => rfl
  have hGL : groupLoop 200 [] 0 [List.replicate 400 'a', List.replicate 400 'b',
      List.replicate 600 'c'] =
      ([[List.replicate 400 'a', List.replicate 400 'b']], [List.replicate 600 'c'], 150) := by
    rw [gcons, hea, if_neg (by omega)]
    rw [gcons, heb, if_neg (by omega)]
    rw [gcons, hec, if_pos (by omega)]
    rw [groupLoop]
    simp
  have hgroups : groupsOf 200 [List.replicate 400 'a', List.replicate 400 'b',
      List.replicate 600 'c'] =
      [[List.replicate 400 'a', List.replicate 400 'b'], [List.replicate 600 'c']] := by
    unfold groupsOf
    rw [hGL]
    rfl
  refine ⟨hea, heb, hec, hgroups, ?_, ?_⟩
  · simp only [reduceStage]
    rw [combineStage_eq, hgroups]
    cases hfo : fo (List.filterMap go [[List.replicate 400 'a', List.replicate 400 'b'],
        [List.replicate 600 'c']]) <;> rfl
  · simp only [reduceStage]
    rw [combineStage_eq, hgroups]
    cases hfo : fo (List.filterMap go [[List.replicate 400 'a', List.replicate 400 'b'],
        [List.replicate 600 'c']]) <;> rfl

theorem groupLoop_cons (limit cgt : Nat) (cg : List Str) (chunk : Str)
    (rest : List Str) :
    groupLoop limit cg cgt (chunk :: rest) =
      if limit < cgt + estimateTokens chunk then
        (cg :: (groupLoop limit [chunk] (estimateTokens chunk) rest).1,
          (groupLoop limit [chunk] (estimateTokens chunk) rest).2)
      else groupLoop limit (cg ++ [chunk]) (cgt + estimateTokens chunk) rest := rfl

/-- C9, counterexample: with two processed chunks of estimated cost 1001
each (so that the group stage flushes twice against the 2000 limit) and an
external combine call that returns no usable content, the run does not fail:
it silently drops both group results and succeeds with whatever the final
call returns. -/
theorem processNotesModel_silent_skip_cex :
    (processNotesModel (fun c => some c) (fun _ => none)
        (fun _ => some "final".toList)
        [List.replicate 4004 'a', List.replicate 4004 'a']).result =
      Except.ok "final".toList ∧
    (processNotesModel (fun c => some c) (fun _ => none)
        (fun _ => some "final".toList)
        [List.replicate 4004 'a', List.replicate 4004 'a']).groupCalls = 2 := by
  have hunfold : ∀ s : Str, estimateTokens s = (s.length + 3) / 4 := fun _ => rfl
  have hest : estimateTokens (List.replicate 4004 'a') = 1001 :=
    (hunfold (List.replicate 4004 'a')).trans
      ((congrArg (fun m => (m + 3) / 4) (List.length_replicate 4004 'a')).trans (by decide))
  have hGL : groupLoop 2000 [] 0 [List.replicate 4004 'a', List.replicate 4004 'a'] =
      ([[List.replicate 4004 'a']], [List.replicate 4004 'a'], 1001) := by
    rw [groupLoop_cons, hest, if_neg (by omega)]
    rw [groupLoop_cons, hest, if_pos (by omega)]
    rw [groupLoop]
    rfl
  have hgroups : groupsOf 2000 [List.replicate 4004 'a', List.replicate 4004 'a'] =
      [[List.replicate 4004 'a'], [List.replicate 4004 'a']] := by
    unfold groupsOf
    rw [hGL]
    rfl
  have hcs : chunkStage (fun x : Str => some x)
      [List.replicate 4004 'a', List.replicate 4004 'a'] =
      (some [List.replicate 4004 'a', List.replicate 4004 'a'], 2) := rfl
  have hrun : processNotesModel (fun c => some c) (fun _ => none)
      (fun _ => some "final".toList)
      [List.replicate 4004 'a', List.replicate 4004 'a'] =
      ⟨Except.ok "final".toList, 2, 2, 1⟩ := by
    simp only [processNotesModel, hcs, reduceStage]
    rw [combineStage_eq, hgroups]
    rfl
  rw [hrun]
  exact ⟨rfl, rfl⟩

/-- C9, amended: a per-chunk cleanup call that returns no usable content
fails the whole run at once with the fatal no-content error, and so does
the final combination call; but a group-combine call that returns no
content does not fail the run: that group's output is silently omitted
from the final combination's input. -/
theorem processNotesModel_emptyResponse (co : Str → Option Str)
    (go fo : List Str → Option Str) (chunks : List Str) :
    ((chunkStage co chunks).1 = none →
      (processNotesModel co go fo chunks).result =
        Except.error "No content received from API".toList) ∧
    (∀ ps, (chunkStage co chunks).1 = some ps →
      (processNotesModel co go fo chunks).result =
        match fo ((groupsOf 2000 ps).filterMap go) with
        | none => Except.error "No content received from final API call".toList
        | some v => Except.ok v) := by
  constructor
  · intro h
    rcases hcs : chunkStage co chunks with ⟨o, n⟩
    rw [hcs] at h
    cases o with
    | none => simp only [processNotesModel, hcs]
    | some ps => simp at h
  · intro ps h
    rcases hcs : chunkStage co chunks with ⟨o, n⟩
    rw [hcs] at h
    cases o with
    | none => simp at h
    | some ps2 =>
      have hps : ps2 = ps := by simpa using h
      subst hps
      simp only [processNotesModel, hcs, reduceStage]
      rw [combineStage_eq]
      cases hfo : fo ((groupsOf 2000 ps2).filterMap go) <;> rfl

/-- Witness for C9's amended theorem at a concrete failing per-chunk
call. -/
theorem processNotesModel_emptyResponse_witness :
    (chunkStage (fun _ => none) ["x".toList]).1 = none ∧
      (processNotesModel (fun _ => none) (fun _ => some []) (fun _ => some [])
          ["x".toList]).result =
        Except.error "No content received from API".toList :=
  ⟨rfl, (processNotesModel_emptyResponse (fun _ => none) (fun _ => some [])
      (fun _ => some []) ["x".toList]).1 rfl⟩

theorem foldl_pushIf {α β : Type} (p : α → Bool) (f : α → β) :
    ∀ (l : List α) (acc : List β),
      l.foldl (fun acc2 i => if p i then acc2 ++ [f i] else acc2) acc =
        acc ++ (l.filter p).map f := by
  intro l
  induction l with
  | nil => intro acc; simp
  | cons x xs ih =>
    intro acc
    rw [List.foldl_cons, List.filter_cons]
    by_cases hx : p x = true
    · rw [if_pos hx, if_pos hx, ih]
      simp
    · rw [if_neg hx, if_neg hx, ih]

theorem findOverlapPoints_eq (lastSentence currentText : Str) :
    findOverlapPoints lastSentence currentText =
      ((((List.range' 3 ((splitWsRuns lastSentence).length - 2)).reverse).map
        (phraseOf (splitWsRuns lastSentence))).filter
        (fun p => jincludes (jlower currentText) (jlower p))) := by
  unfold findOverlapPoints
  rw [foldl_pushIf (fun i => jincludes (jlower currentText)
    (jlower (phraseOf (splitWsRuns lastSentence) i))) (phraseOf (splitWsRuns lastSentence))]
  rw [List.filter_map]
  rfl

theorem find?_eq_head?_filter (q : Str → Bool) :
    ∀ l : List Str, l.find? q = (l.filter q).head? := by
  intro l
  induction l with
  | nil => rfl
  | cons x xs ih =>
    rw [List.filter_cons]
    by_cases hx : q x = true
    · rw [List.find?_cons_of_pos xs hx, if_pos hx, List.head?_cons]
    · rw [List.find?_cons_of_neg xs hx, if_neg hx, ih]

theorem foldl_keepLongest :
    ∀ (ps : List Str) (p : Str), (∀ b ∈ ps, b.length < p.length) →
      ps.foldl (fun a b => if b.length < a.length then a else b) p = p
  | [], _, _ => rfl
  | b :: bs, p, h => by
    have hb : b.length < p.length := h b (List.mem_cons_self b bs)
    rw [List.foldl_cons, if_pos hb]
    exact foldl_keepLongest bs p (fun x hx => h x (List.mem_cons_of_mem b hx))

theorem sublist_sum_le {l1 l2 : List Nat} (h : List.Sublist l1 l2) :
    l1.sum ≤ l2.sum := by
  induction h with
  | slnil => exact Nat.le_refl 0
  | cons a h ih =>
    rw [List.sum_cons]
    omega
  | cons₂ a h ih =>
    rw [List.sum_cons, List.sum_cons]
    omega

theorem intercalate_space_length :
    ∀ (xs : List Str), xs ≠ [] →
      (List.intercalate [' '] xs).length = (xs.map List.length).sum + (xs.length - 1)
  | [], h => absurd rfl h
  | [x], _ => by
    have h1 : (List.intercalate [' '] [x]).length = x.length := by
      rw [List.intercalate, List.intersperse_single]
      simp
    rw [h1]
    simp
  | x :: y :: t, _ => by
    have ih := intercalate_space_length (y :: t) (by simp)
    have hstep : List.intercalate [' '] (x :: y :: t) =
        x ++ ' ' :: List.intercalate [' '] (y :: t) := by
      rw [List.intercalate, List.intersperse_cons₂, List.intercalate]
      simp
    rw [hstep]
    simp only [List.length_append, List.length_cons, ih, List.map_cons, List.sum_cons]
    omega

theorem phraseOf_length_lt (words : List Str) (a b : Nat) (ha : 1 ≤ a) (hab : a < b)
    (hb : b ≤ words.length) :
    (phraseOf words a).length < (phraseOf words b).length := by
  unfold phraseOf
  have hda : (words.drop (words.length - a)).length = a := by
    rw [List.length_drop]
    omega
  have hdb : (words.drop (words.length - b)).length = b := by
    rw [List.length_drop]
    omega
  have hna : words.drop (words.length - a) ≠ [] := by
    intro hnil
    rw [hnil] at hda
    simp at hda
    omega
  have hnb : words.drop (words.length - b) ≠ [] := by
    intro hnil
    rw [hnil] at hdb
    simp at hdb
    omega
  rw [intercalate_space_length _ hna, intercalate_space_length _ hnb, hda, hdb]
  have hsuffix : words.drop (words.length - a) =
      (words.drop (words.length - b)).drop (b - a) := by
    rw [List.drop_drop]
    congr 1
    omega
  have hsum : ((words.drop (words.length - a)).map List.length).sum ≤
      ((words.drop (words.length - b)).map List.length).sum := by
    rw [hsuffix]
    exact sublist_sum_le ((List.drop_sublist (b - a) _).map List.length)
  omega

theorem resolve_core_eq (lastSentence currentText : Str) :
    (match findOverlapPoints lastSentence currentText with
     | [] => currentText
     | p :: ps =>
       let bestOverlap := ps.foldl (fun a b => if b.length < a.length then a else b) p
       match indexOfFrom (jlower bestOverlap) (jlower currentText) 0 with
       | some overlapIndex =>
         if 2 * overlapIndex < currentText.length then
           jtrim (currentText.drop (overlapIndex + bestOverlap.length))
         else currentText
       | none => currentText) =
    (match ((((List.range' 3 ((splitWsRuns lastSentence).length - 2)).reverse).map
        (phraseOf (splitWsRuns lastSentence))).find?
        (fun p => jincludes (jlower currentText) (jlower p))) with
     | none => currentText
     | some p =>
       match indexOfFrom (jlower p) (jlower currentText) 0 with
       | some idx =>
         if 2 * idx < currentText.length then jtrim (currentText.drop (idx + p.length))
         else currentText
       | none => currentText) := by
  rw [findOverlapPoints_eq, find?_eq_head?_filter]
  cases hfl : (((List.range' 3 ((splitWsRuns lastSentence).length - 2)).reverse).map
      (phraseOf (splitWsRuns lastSentence))).filter
      (fun p => jincludes (jlower currentText) (jlower p)) with
  | nil => rfl
  | cons p ps =>
    have hpw : (((List.range' 3 ((splitWsRuns lastSentence).length - 2)).reverse).map
        (phraseOf (splitWsRuns lastSentence))).Pairwise
        (fun x y : Str => y.length < x.length) := by
      rw [List.pairwise_map, List.pairwise_reverse]
      refine List.Pairwise.imp_of_mem ?_ (List.pairwise_lt_range' 3 _)
      intro a b hma hmb hab
      have hba := List.mem_range'_1.mp hma
      have hbb := List.mem_range'_1.mp hmb
      exact phraseOf_length_lt (splitWsRuns lastSentence) a b (by omega) hab (by omega)
    have hps : ∀ b ∈ ps, b.length < p.length := by
      have hsub : List.Sublist
          ((((List.range' 3 ((splitWsRuns lastSentence).length - 2)).reverse).map
            (phraseOf (splitWsRuns lastSentence))).filter
            (fun p => jincludes (jlower currentText) (jlower p)))
          (((List.range' 3 ((splitWsRuns lastSentence).length - 2)).reverse).map
            (phraseOf (splitWsRuns lastSentence))) := List.filter_sublist _
      have h2 := List.Pairwise.sublist hsub hpw
      rw [hfl] at h2
      exact (List.pairwise_cons.mp h2).1
    have hbest : ps.foldl (fun a b => if b.length < a.length then a else b) p = p :=
      foldl_keepLongest ps p hps
    simp only [hbest, List.head?_cons]

/-- C4: the overlap resolver of the source agrees, on every input pair,
with the resolver written from the specification's words: candidates are
the word-sequence suffixes of the previous text's last sentence of length
at least three, the longest one occurring case-insensitively in the
current text decides, the cut happens exactly when the match sits in the
first half of the current text, and in every other case the current text
is returned changed only by whitespace trimming. -/
theorem resolveOverlap_eq_spec (prevText rawCurrent : Str) :
    resolveOverlap prevText rawCurrent = resolveOverlapSpec prevText rawCurrent := by
  unfold resolveOverlap resolveOverlapSpec
  by_cases he : (jtrim ((((splitOnPunct prevText).filter
      fun s => 0 < (jtrim s).length).getLast?).getD [])).isEmpty
  · rw [if_pos he, if_pos he]
  · rw [if_neg he, if_neg he]
    exact resolve_core_eq _ _

end Transcription
